import Mathlib

/-!
Verification of the chapter-2 interpolation engine (`src/ch2/src/main.rs`).

Embedding conventions:

* The source computes over `f32`.  The development models the arithmetic two
  ways.  The main model uses exact rationals (`ℚ`): every `f32` literal is
  taken at its decimal value and rounding is abstracted away, which is the
  right level for the structural and algebraic claims (the spec's tolerances
  exist only to absorb rounding).  A second model `EF` adjoins the IEEE
  special values `+∞`, `-∞`, `NaN` to `ℚ` with the IEEE rules for the four
  arithmetic operations (rounding again abstracted, and the sign of a
  computed zero is not tracked); it is used for the claims about division by
  zero and non-finite propagation.
* Rust panics (out-of-bounds indexing / slicing) are modelled by `Option`:
  `none` is a panic.  `NewtonPolynomial.get_y` is the only evaluation that
  can panic (`self.ddiffs[1..]` and `self.ddiffs[0]` on an empty table);
  the Lagrange and monomial evaluators are total.
* `NewtonPolynomial::ddiff` takes `i j : i32` in the source and matches on
  `(i - j).abs()`.  Every call site (`get_ddiffs(0, k)` and the recursive
  calls it spawns) satisfies `0 ≤ i ≤ j`, where `(i - j).abs() = j - i`;
  the embedding uses `ℕ` indices with truncated subtraction `j - i`,
  which agrees with the source on all reachable arguments.
* The source's `struct Polynomial` (monomial coefficient form) is named
  `MonomialPolynomial` here, to avoid clashing with Mathlib's `Polynomial`;
  all other names follow the source.
-/

structure Point where
  x : ℚ
  y : ℚ
  deriving DecidableEq

instance : Inhabited Point := ⟨⟨0, 0⟩⟩

/-- Monomial-basis polynomial, `struct Polynomial(&[f32])` in the source. -/
structure MonomialPolynomial where
  coeffs : List ℚ
  deriving DecidableEq

/-- Embeds `Polynomial::get_y`: fold over the enumerated coefficients,
`acc + x.powi(i) * c`. -/
def MonomialPolynomial.get_y (p : MonomialPolynomial) (x : ℚ) : ℚ :=
  p.coeffs.enum.foldl (fun acc c => acc + x ^ c.1 * c.2) 0

/-- Embeds the `PolyGetPoints::get_points` default method. -/
def MonomialPolynomial.get_points (p : MonomialPolynomial) (xs : List ℚ) : List Point :=
  xs.map fun x => ⟨x, p.get_y x⟩

/-- Barycentric term: a weight paired with a sample point (`struct Bterm`). -/
structure Bterm where
  w : ℚ
  p : Point
  deriving DecidableEq

structure LagrangePolynomial where
  bterms : List Bterm
  deriving DecidableEq

/-- Embeds `LagrangePolynomial::get_bweights`: one `Bterm` per input point,
whose weight is the product of the differences `point.x - p.x` over the whole
input list, keeping only the factors that are not exactly zero. -/
def LagrangePolynomial.get_bweights (points : List Point) : List Bterm :=
  points.map fun point =>
    { p := point
      w := ((points.map fun p => point.x - p.x).filter fun d => d != 0).prod }

/-- Embeds `<LagrangePolynomial as PolyInterpolate>::interpolate`. -/
def LagrangePolynomial.interpolate (points : List Point) : LagrangePolynomial :=
  { bterms := LagrangePolynomial.get_bweights points }

/-- Embeds `<LagrangePolynomial as PolyGetPoints>::get_y`: return the stored
`y` on an exact node hit, otherwise the barycentric quotient of the two
folded sums. -/
def LagrangePolynomial.get_y (lp : LagrangePolynomial) (x : ℚ) : ℚ :=
  match lp.bterms.find? (fun b => b.p.x == x) with
  | some bweight => bweight.p.y
  | none =>
    let terms : ℚ × ℚ := lp.bterms.foldl
      (fun acc bterm =>
        let temp := (x - bterm.p.x) * bterm.w
        (acc.1 + bterm.p.y / temp, acc.2 + 1 / temp))
      (0, 0)
    terms.1 / terms.2

structure NewtonPolynomial where
  points : List Point
  ddiffs : List ℚ
  deriving DecidableEq

/-- Embeds `NewtonPolynomial::ddiff` (naive recursion on divided
differences), restricted to the reachable arguments `i ≤ j` (see the file
header). -/
def NewtonPolynomial.ddiff (points : List Point) (i j : ℕ) : ℚ :=
  if _h0 : j - i = 0 then (points.getD i default).y
  else if _h1 : j - i = 1 then
    ((points.getD j default).y - (points.getD i default).y) /
      ((points.getD j default).x - (points.getD i default).x)
  else
    (NewtonPolynomial.ddiff points (i + 1) j - NewtonPolynomial.ddiff points i (j - 1)) /
      ((points.getD j default).x - (points.getD i default).x)
termination_by j - i
decreasing_by all_goals omega

/-- Embeds `NewtonPolynomial::get_ddiffs`: the leading divided differences
`ddiff(0, k)` for each index `k` of the enumerated point list. -/
def NewtonPolynomial.get_ddiffs (points : List Point) : List ℚ :=
  points.enum.map fun j => NewtonPolynomial.ddiff points 0 j.1

/-- Embeds `<NewtonPolynomial as PolyInterpolate>::interpolate`. -/
def NewtonPolynomial.interpolate (points : List Point) : NewtonPolynomial :=
  { points := points, ddiffs := NewtonPolynomial.get_ddiffs points }

/-- Embeds the `scan(1_f32, |acc, x| { *acc = *acc * x; Some(*acc) })`
running product from `NewtonPolynomial::get_y`. -/
def scanMul (acc : ℚ) : List ℚ → List ℚ
  | [] => []
  | a :: t => (acc * a) :: scanMul (acc * a) t

/-- Embeds `<NewtonPolynomial as PolyGetPoints>::get_y`.  `none` models the
Rust panic: `self.ddiffs[1..]` (and `self.ddiffs[0]`) panics exactly when the
divided-difference table is empty. -/
def NewtonPolynomial.get_y (np : NewtonPolynomial) (x : ℚ) : Option ℚ :=
  match np.points.find? (fun p => p.x == x) with
  | some point => some point.y
  | none =>
    if np.ddiffs.length = 0 then none
    else
      some ((((np.ddiffs.drop 1).zip (scanMul 1 (np.points.map fun p => x - p.x))).map
        (fun z => z.1 * z.2)).sum + np.ddiffs.headD 0)

/-- Embeds the `get_points` default method for `NewtonPolynomial`; a panic in
any single evaluation propagates (`Option.mapM`). -/
def NewtonPolynomial.get_points (np : NewtonPolynomial) (xs : List ℚ) : Option (List Point) :=
  xs.mapM fun x => (np.get_y x).map fun y => Point.mk x y

/-- Embeds the `get_points` default method for `LagrangePolynomial`. -/
def LagrangePolynomial.get_points (lp : LagrangePolynomial) (xs : List ℚ) : List Point :=
  xs.map fun x => ⟨x, lp.get_y x⟩

/-- The ground-truth polynomial of `main`: coefficients `[1.9, 9.2, 7.0]`. -/
def scenarioPoly : MonomialPolynomial := ⟨[19/10, 92/10, 7]⟩

/-- The node x-coordinates of `main`: `[1.8, 37.2, 80.9]`. -/
def scenarioNodes : List ℚ := [9/5, 186/5, 809/10]

/-- The sample points of `main`: the ground truth evaluated at the nodes. -/
def scenarioPoints : List Point := scenarioPoly.get_points scenarioNodes

/-- The query points of `main`: `(10u8..100u8).map(f32::from)`. -/
def testXs : List ℚ := (List.range 90).map fun k => ((10 + k : ℕ) : ℚ)

/-- The Lagrange interpolant built in `main`. -/
def scenarioLP : LagrangePolynomial := LagrangePolynomial.interpolate scenarioPoints

/-- The Newton interpolant built in `main`. -/
def scenarioNP : NewtonPolynomial := NewtonPolynomial.interpolate scenarioPoints

/-- Embeds `count_lp` from `main`: the number of query points where ground
truth and Lagrange interpolant differ by more than `0.01`. -/
def count_lp : ℕ :=
  (((scenarioPoly.get_points testXs).zip (scenarioLP.get_points testXs)).filter
    fun z => (1 : ℚ) / 100 < |z.1.y - z.2.y|).length

/-- Embeds `count_np` from `main`: the number of query points where ground
truth and Newton interpolant differ by more than `0.05`; `none` would mean a
panic inside the Newton evaluations. -/
def count_np : Option ℕ :=
  (scenarioNP.get_points testXs).map fun nps =>
    (((scenarioPoly.get_points testXs).zip nps).filter
      fun z => (1 : ℚ) / 20 < |z.1.y - z.2.y|).length

/-- Shorthand for the x-coordinate of the `i`-th stored point (out-of-range
indices read the default point, matching `List.getD` in the embedding). -/
def xcoord (points : List Point) (i : ℕ) : ℚ := (points.getD i default).x

/-- Shorthand for the y-coordinate of the `i`-th stored point. -/
def ycoord (points : List Point) (i : ℕ) : ℚ := (points.getD i default).y

/-- The barycentric weight exactly as claim C2 words it: the product of
`xᵢ - xⱼ` over all point indices `j`, keeping only the factors that are not
exactly zero. -/
def bweightSpec (points : List Point) (i : ℕ) : ℚ :=
  ∏ j in (Finset.range points.length).filter
      (fun j => xcoord points i - xcoord points j ≠ 0),
    (xcoord points i - xcoord points j)

/-- Extended value model of `f32` for the non-finite-propagation claims: an
exact rational, `+∞`, `-∞`, or `NaN`.  Rounding and the sign of a computed
zero are abstracted away (see the file header). -/
inductive EF where
  | fin (q : ℚ)
  | pinf
  | ninf
  | nan
  deriving DecidableEq

/-- IEEE negation on extended values. -/
def EF.neg : EF → EF
  | fin q => fin (-q)
  | pinf => ninf
  | ninf => pinf
  | nan => nan

/-- IEEE addition on extended values; opposite infinities give `NaN`. -/
def EF.add : EF → EF → EF
  | fin a, fin b => fin (a + b)
  | fin _, pinf => pinf
  | fin _, ninf => ninf
  | pinf, fin _ => pinf
  | ninf, fin _ => ninf
  | pinf, pinf => pinf
  | ninf, ninf => ninf
  | pinf, ninf => nan
  | ninf, pinf => nan
  | _, _ => nan

/-- IEEE subtraction on extended values. -/
def EF.sub (a b : EF) : EF := EF.add a (EF.neg b)

/-- IEEE multiplication on extended values; `0 · ∞` gives `NaN`. -/
def EF.mul : EF → EF → EF
  | fin a, fin b => fin (a * b)
  | fin a, pinf => if a = 0 then nan else if 0 < a then pinf else ninf
  | fin a, ninf => if a = 0 then nan else if 0 < a then ninf else pinf
  | pinf, fin b => if b = 0 then nan else if 0 < b then pinf else ninf
  | ninf, fin b => if b = 0 then nan else if 0 < b then ninf else pinf
  | pinf, pinf => pinf
  | ninf, ninf => pinf
  | pinf, ninf => ninf
  | ninf, pinf => ninf
  | _, _ => nan

/-- IEEE division on extended values: a nonzero finite value divided by zero
is a signed infinity, `0 / 0` and `∞ / ∞` are `NaN`, finite over infinite is
zero. -/
def EF.div : EF → EF → EF
  | fin a, fin b =>
    if b = 0 then (if a = 0 then nan else if 0 < a then pinf else ninf)
    else fin (a / b)
  | fin _, pinf => fin 0
  | fin _, ninf => fin 0
  | pinf, fin b => if 0 ≤ b then pinf else ninf
  | ninf, fin b => if 0 ≤ b then ninf else pinf
  | _, _ => nan

/-- An extended value is non-finite when it is an infinity or `NaN`. -/
def EF.nonFinite : EF → Bool
  | fin _ => false
  | _ => true

/-- Running product with initial value `1`, as Rust's `Iterator::product`. -/
def EF.listProd (l : List EF) : EF := l.foldl EF.mul (EF.fin 1)

/-- Running sum with initial value `0`, as Rust's `Iterator::sum`. -/
def EF.listSum (l : List EF) : EF := l.foldl EF.add (EF.fin 0)

/-- The weight computation of `LagrangePolynomial::get_bweights` in the
extended-value model: the zero filter acts on the exact differences (the
inputs are finite), the product is taken with IEEE multiplication. -/
def LagrangePolynomial.get_bweightsEF (points : List Point) : List (EF × Point) :=
  points.map fun point =>
    (EF.listProd (((points.map fun p => point.x - p.x).filter fun d => d != 0).map EF.fin),
      point)

/-- The evaluation of `LagrangePolynomial::get_y` in the extended-value
model. -/
def LagrangePolynomial.get_yEF (points : List Point) (x : ℚ) : EF :=
  match points.find? (fun p => p.x == x) with
  | some p => EF.fin p.y
  | none =>
    let terms : EF × EF := (LagrangePolynomial.get_bweightsEF points).foldl
      (fun acc bterm =>
        let temp := EF.mul (EF.fin (x - bterm.2.x)) bterm.1
        (EF.add acc.1 (EF.div (EF.fin bterm.2.y) temp),
          EF.add acc.2 (EF.div (EF.fin 1) temp)))
      (EF.fin 0, EF.fin 0)
    EF.div terms.1 terms.2

/-- The divided-difference recursion of `NewtonPolynomial::ddiff` in the
extended-value model. -/
def NewtonPolynomial.ddiffEF (points : List Point) (i j : ℕ) : EF :=
  if _h0 : j - i = 0 then EF.fin (points.getD i default).y
  else if _h1 : j - i = 1 then
    EF.div (EF.fin ((points.getD j default).y - (points.getD i default).y))
      (EF.fin ((points.getD j default).x - (points.getD i default).x))
  else
    EF.div
      (EF.sub (NewtonPolynomial.ddiffEF points (i + 1) j)
        (NewtonPolynomial.ddiffEF points i (j - 1)))
      (EF.fin ((points.getD j default).x - (points.getD i default).x))
termination_by j - i
decreasing_by all_goals omega

/-- The table of `NewtonPolynomial::get_ddiffs` in the extended-value model. -/
def NewtonPolynomial.get_ddiffsEF (points : List Point) : List EF :=
  points.enum.map fun j => NewtonPolynomial.ddiffEF points 0 j.1

/-- The running product of `NewtonPolynomial::get_y` in the extended-value
model. -/
def scanMulEF (acc : EF) : List EF → List EF
  | [] => []
  | a :: t => (EF.mul acc a) :: scanMulEF (EF.mul acc a) t

/-- The evaluation of `NewtonPolynomial::get_y` in the extended-value model,
applied to the interpolant built from `points`; `none` models the panic on an
empty divided-difference table. -/
def NewtonPolynomial.get_yEF (points : List Point) (x : ℚ) : Option EF :=
  match points.find? (fun p => p.x == x) with
  | some p => some (EF.fin p.y)
  | none =>
    let dd := NewtonPolynomial.get_ddiffsEF points
    if dd.length = 0 then none
    else
      some (EF.add
        (EF.listSum (((dd.drop 1).zip
          (scanMulEF (EF.fin 1) (points.map fun p => EF.fin (x - p.x)))).map
            fun z => EF.mul z.1 z.2))
        (dd.headD (EF.fin 0)))

/-- Proof device for order invariance: the partial Newton-form polynomial
over the index window `[i, j]`,
`∑ k, ddiff(i,k) · ∏_{i ≤ m < k} (X - xₘ)`. -/
noncomputable def nwPoly (points : List Point) (i j : ℕ) : Polynomial ℚ :=
  ∑ k in Finset.Icc i j, Polynomial.C (NewtonPolynomial.ddiff points i k) *
    ∏ m in Finset.Ico i k, (Polynomial.X - Polynomial.C (xcoord points m))

/-- Proof device for order invariance: the Neville recursion over the index
window `[i, j]`, used to show that the Newton form interpolates its nodes. -/
noncomputable def nev (points : List Point) (i j : ℕ) : Polynomial ℚ :=
  if _h : j ≤ i then Polynomial.C (ycoord points i)
  else Polynomial.C (xcoord points j - xcoord points i)⁻¹ *
    ((Polynomial.X - Polynomial.C (xcoord points i)) * nev points (i + 1) j -
      (Polynomial.X - Polynomial.C (xcoord points j)) * nev points i (j - 1))
termination_by j - i
decreasing_by all_goals omega

section ListLemmas

/-- A fold accumulating a pair of running sums is the pair of list sums. -/
theorem foldl_pair_sum (l : List α) (f g : α → ℚ) (ab : ℚ × ℚ) :
    l.foldl (fun acc t => (acc.1 + f t, acc.2 + g t)) ab
      = (ab.1 + (l.map f).sum, ab.2 + (l.map g).sum) := by
  induction l generalizing ab with
  | nil => simp
  | cons b t ih => simp [ih, add_assoc]

/-- A fold accumulating one running sum is the list sum. -/
theorem foldl_add_sum (l : List α) (f : α → ℚ) (a : ℚ) :
    l.foldl (fun acc t => acc + f t) a = a + (l.map f).sum := by
  induction l generalizing a with
  | nil => simp
  | cons b t ih => simp [ih, add_assoc]

/-- The sum of a mapped list as a `Finset.range` sum over indices. -/
theorem sum_map_eq_sum_range (l : List α) (d : α) (f : α → ℚ) :
    (l.map f).sum = ∑ i in Finset.range l.length, f (l.getD i d) := by
  induction l with
  | nil => simp
  | cons a t ih =>
    rw [List.map_cons, List.sum_cons, ih, List.length_cons, Finset.sum_range_succ']
    simp [add_comm]

/-- The product of the nonzero values of a mapped list as a `Finset` product
over the indices giving nonzero values. -/
theorem prod_filter_map_ne_zero (l : List α) (d : α) (f : α → ℚ) :
    ((l.map f).filter fun q => q != 0).prod
      = ∏ i in (Finset.range l.length).filter (fun i => f (l.getD i d) ≠ 0),
          f (l.getD i d) := by
  induction l with
  | nil => simp
  | cons a t ih =>
    rw [List.map_cons, List.filter_cons, Finset.prod_filter, List.length_cons,
      Finset.prod_range_succ']
    simp only [List.getD_cons_succ, List.getD_cons_zero, ← Finset.prod_filter, ih]
    simp only [List.getD_eq_getElem?_getD] at ih
    by_cases h : f a = 0
    · simp [h, ih]
    · simp [h, ih, mul_comm]

/-- The running product keeps the length of its input. -/
theorem scanMul_length (a : ℚ) (l : List ℚ) : (scanMul a l).length = l.length := by
  induction l generalizing a with
  | nil => rfl
  | cons b t ih => simp [scanMul, ih]

/-- The `i`-th entry of the running product is the seed times the product of
the first `i + 1` inputs. -/
theorem scanMul_getD (a : ℚ) (l : List ℚ) (i : ℕ) (h : i < l.length) :
    (scanMul a l).getD i 0 = a * (l.take (i + 1)).prod := by
  induction l generalizing a i with
  | nil => simp at h
  | cons b t ih =>
    cases i with
    | zero => simp [scanMul]
    | succ i =>
      rw [scanMul, List.getD_cons_succ, ih (a * b) i (by simpa using h)]
      simp [mul_assoc]

/-- The product of an initial segment as a `Finset.range` product. -/
theorem prod_take_eq_prod_range (l : List ℚ) (k : ℕ) (h : k ≤ l.length) :
    (l.take k).prod = ∏ m in Finset.range k, l.getD m 0 := by
  induction l generalizing k with
  | nil => simp_all
  | cons b t ih =>
    cases k with
    | zero => simp
    | succ k =>
      rw [List.take_succ_cons, List.prod_cons, Finset.prod_range_succ',
        ih k (by simpa using h)]
      simp [mul_comm]

/-- The sum of a binary function mapped over a zip as a `Finset.range` sum. -/
theorem zip_map_sum (A : List α) (B : List β) (dA : α) (dB : β) (F : α → β → ℚ) :
    ((A.zip B).map fun z => F z.1 z.2).sum
      = ∑ i in Finset.range (min A.length B.length), F (A.getD i dA) (B.getD i dB) := by
  induction A generalizing B with
  | nil => simp
  | cons a A ih =>
    cases B with
    | nil => simp
    | cons b B =>
      rw [List.zip_cons_cons, List.map_cons, List.sum_cons, ih B]
      rw [List.length_cons, List.length_cons, Nat.succ_min_succ, Finset.sum_range_succ']
      simp [add_comm]

/-- The sum of pointwise products of two lists as a `Finset.range` sum. -/
theorem zip_map_mul_sum (A B : List ℚ) :
    ((A.zip B).map fun z => z.1 * z.2).sum
      = ∑ i in Finset.range (min A.length B.length), A.getD i 0 * B.getD i 0 :=
  zip_map_sum A B 0 0 (· * ·)

end ListLemmas

section NewtonTable

/-- The stored divided-difference table is `ddiff(0, ·)` mapped over the
index range. -/
theorem get_ddiffs_eq (points : List Point) :
    NewtonPolynomial.get_ddiffs points
      = (List.range points.length).map (NewtonPolynomial.ddiff points 0) := by
  rw [NewtonPolynomial.get_ddiffs, List.enum_eq_zip_range]
  have hc : (fun (j : ℕ × Point) => NewtonPolynomial.ddiff points 0 j.1)
      = (NewtonPolynomial.ddiff points 0) ∘ Prod.fst := rfl
  rw [hc, ← List.map_map, List.map_fst_zip _ _ (by simp)]

/-- The divided-difference table has one entry per point. -/
theorem get_ddiffs_length (points : List Point) :
    (NewtonPolynomial.get_ddiffs points).length = points.length := by
  simp [get_ddiffs_eq]

/-- The `k`-th stored divided difference is `ddiff(0, k)`. -/
theorem get_ddiffs_getD (points : List Point) (k : ℕ) (h : k < points.length) :
    (NewtonPolynomial.get_ddiffs points).getD k 0 = NewtonPolynomial.ddiff points 0 k := by
  rw [get_ddiffs_eq, List.getD_eq_getElem _ _ (by simpa using h)]
  simp

/-- The zeroth-order divided difference is the node value. -/
theorem ddiff_self (points : List Point) (i : ℕ) :
    NewtonPolynomial.ddiff points i i = ycoord points i := by
  rw [NewtonPolynomial.ddiff]
  simp [ycoord]

/-- The first-order divided difference is the difference quotient of two
consecutive nodes. -/
theorem ddiff_adj (points : List Point) (i : ℕ) :
    NewtonPolynomial.ddiff points i (i + 1)
      = (ycoord points (i + 1) - ycoord points i)
          / (xcoord points (i + 1) - xcoord points i) := by
  rw [NewtonPolynomial.ddiff]
  have h0 : ¬(i + 1 - i = 0) := by omega
  have h1 : i + 1 - i = 1 := by omega
  simp [h0, h1, xcoord, ycoord]

/-- The higher-order divided differences satisfy the two-sided recursion. -/
theorem ddiff_rec (points : List Point) (i j : ℕ) (h : i + 2 ≤ j) :
    NewtonPolynomial.ddiff points i j
      = (NewtonPolynomial.ddiff points (i + 1) j - NewtonPolynomial.ddiff points i (j - 1))
          / (xcoord points j - xcoord points i) := by
  rw [NewtonPolynomial.ddiff]
  have h0 : ¬(j - i = 0) := by omega
  have h1 : ¬(j - i = 1) := by omega
  simp [h0, h1, xcoord]

end NewtonTable

section EvalHelpers

/-- Two points of a distinct-x list sharing an x-coordinate are the same
point. -/
theorem nodup_x_inj (points : List Point) (hnd : (points.map Point.x).Nodup)
    {p q : Point} (hp : p ∈ points) (hq : q ∈ points) (hxy : p.x = q.x) : p = q :=
  List.inj_on_of_nodup_map hnd hp hq hxy

/-- When the query x-coordinate misses every point, the point search fails. -/
theorem find?_points_none (points : List Point) (x : ℚ)
    (h : ∀ p ∈ points, p.x ≠ x) : points.find? (fun p => p.x == x) = none := by
  rw [List.find?_eq_none]
  intro p hp
  simpa using h p hp

/-- When the query x-coordinate misses every point, the barycentric-term
search fails. -/
theorem find?_bterms_none (points : List Point) (x : ℚ)
    (h : ∀ p ∈ points, p.x ≠ x) :
    (LagrangePolynomial.get_bweights points).find? (fun b => b.p.x == x) = none := by
  rw [List.find?_eq_none]
  intro b hb
  rw [LagrangePolynomial.get_bweights, List.mem_map] at hb
  obtain ⟨p, hp, rfl⟩ := hb
  simpa using h p hp

/-- For a distinct-x point list, searching for the x-coordinate of a member
finds that member. -/
theorem find?_points_mem (points : List Point) (hnd : (points.map Point.x).Nodup)
    {p : Point} (hp : p ∈ points) :
    points.find? (fun q => q.x == p.x) = some p := by
  have hsome : (points.find? (fun q => q.x == p.x)).isSome := by
    rw [List.find?_isSome]
    exact ⟨p, hp, by simp⟩
  obtain ⟨q, hq⟩ := Option.isSome_iff_exists.mp hsome
  have hqx : q.x = p.x := by simpa using List.find?_some hq
  have hqmem : q ∈ points := List.mem_of_find?_eq_some hq
  rw [hq, nodup_x_inj points hnd hqmem hp hqx]

/-- For a distinct-x point list, searching among the barycentric terms for
the x-coordinate of a member finds that member's term. -/
theorem find?_bterms_mem (points : List Point) (hnd : (points.map Point.x).Nodup)
    {p : Point} (hp : p ∈ points) :
    ∃ b, (LagrangePolynomial.get_bweights points).find? (fun b => b.p.x == p.x) = some b
      ∧ b.p = p := by
  have hsome : ((LagrangePolynomial.get_bweights points).find?
      (fun b => b.p.x == p.x)).isSome := by
    rw [List.find?_isSome]
    refine ⟨⟨((points.map fun q => p.x - q.x).filter fun d => d != 0).prod, p⟩, ?_, by simp⟩
    rw [LagrangePolynomial.get_bweights, List.mem_map]
    exact ⟨p, hp, rfl⟩
  obtain ⟨b, hb⟩ := Option.isSome_iff_exists.mp hsome
  refine ⟨b, hb, ?_⟩
  have hbx : b.p.x = p.x := by simpa using List.find?_some hb
  have hbmem : b ∈ LagrangePolynomial.get_bweights points := List.mem_of_find?_eq_some hb
  rw [LagrangePolynomial.get_bweights, List.mem_map] at hbmem
  obtain ⟨q, hq, rfl⟩ := hbmem
  exact nodup_x_inj points hnd hq hp hbx

/-- The weight stored by `get_bweights` equals the claim's indexed product
formulation. -/
theorem bweight_eq_spec (points : List Point) (i : ℕ) :
    ((points.map fun p => (points.getD i default).x - p.x).filter fun d => d != 0).prod
      = bweightSpec points i := by
  rw [prod_filter_map_ne_zero points default]
  rfl

/-- Reading an index of a mapped list, below the length, applies the
function to the corresponding point. -/
theorem getD_map_lt (f : Point → ℚ) (l : List Point) (m : ℕ) (h : m < l.length) :
    (l.map f).getD m 0 = f (l.getD m default) := by
  rw [List.getD_eq_getElem _ _ (by simpa using h), List.getD_eq_getElem _ _ h,
    List.getElem_map]

/-- Reading an index of a tail-slice shifts the index by one. -/
theorem getD_drop_one (l : List ℚ) (i : ℕ) : (l.drop 1).getD i 0 = l.getD (1 + i) 0 := by
  simp [List.getD_eq_getElem?_getD, List.getElem?_drop, Nat.add_comm]

/-- The head-with-default of a rational list is its zeroth entry. -/
theorem headD_eq_getD (l : List ℚ) : l.headD 0 = l.getD 0 0 := by
  cases l <;> rfl

/-- Off the nodes, the Lagrange evaluator returns the barycentric quotient
of the two index sums, with the weights in the claim's product form. -/
theorem lagrange_get_y_off (points : List Point) (x : ℚ)
    (h : ∀ p ∈ points, p.x ≠ x) :
    (LagrangePolynomial.interpolate points).get_y x
      = (∑ i in Finset.range points.length,
          ycoord points i / ((x - xcoord points i) * bweightSpec points i))
        / (∑ i in Finset.range points.length,
            1 / ((x - xcoord points i) * bweightSpec points i)) := by
  have hfind := find?_bterms_none points x h
  simp only [LagrangePolynomial.interpolate, LagrangePolynomial.get_y, hfind]
  simp only [foldl_pair_sum, zero_add]
  simp only [LagrangePolynomial.get_bweights, List.map_map, Function.comp]
  rw [sum_map_eq_sum_range points default, sum_map_eq_sum_range points default]
  refine congrArg₂ (· / ·) ?_ ?_ <;> refine Finset.sum_congr rfl fun i _ => ?_ <;>
    rw [← bweight_eq_spec] <;> rfl

/-- Off the nodes (and with at least one point, so that the table slicing
does not panic), the Newton evaluator returns the leading divided difference
plus the Horner-accumulated Newton-basis sum. -/
theorem newton_get_y_off (points : List Point) (x : ℚ) (hne : points ≠ [])
    (hmiss : ∀ p ∈ points, p.x ≠ x) :
    (NewtonPolynomial.interpolate points).get_y x
      = some (NewtonPolynomial.ddiff points 0 0
          + ∑ k in Finset.Ico 1 points.length,
              NewtonPolynomial.ddiff points 0 k
                * ∏ m in Finset.range k, (x - xcoord points m)) := by
  have hfind := find?_points_none points x hmiss
  have hn : points.length ≠ 0 := fun h0 => hne (List.length_eq_zero.mp h0)
  simp only [NewtonPolynomial.interpolate, NewtonPolynomial.get_y, hfind]
  rw [if_neg (by simpa [get_ddiffs_length] using hn)]
  refine congrArg some ?_
  rw [zip_map_mul_sum, headD_eq_getD, get_ddiffs_getD points 0 (by omega)]
  have hlen : min ((NewtonPolynomial.get_ddiffs points).drop 1).length
      (scanMul 1 (points.map fun p => x - p.x)).length = points.length - 1 := by
    rw [List.length_drop, scanMul_length, List.length_map, get_ddiffs_length]
    omega
  rw [hlen]
  rw [Finset.sum_Ico_eq_sum_range]
  rw [add_comm]
  refine congrArg₂ (· + ·) rfl (Finset.sum_congr rfl fun i hi => ?_)
  rw [Finset.mem_range] at hi
  rw [getD_drop_one, get_ddiffs_getD points (1 + i) (by omega)]
  rw [scanMul_getD 1 _ i (by rw [List.length_map]; omega), one_mul]
  rw [prod_take_eq_prod_range _ (i + 1) (by rw [List.length_map]; omega)]
  have h1i : 1 + i = i + 1 := by omega
  rw [h1i]
  refine congrArg₂ (· * ·) rfl (Finset.prod_congr rfl fun m hm => ?_)
  rw [Finset.mem_range] at hm
  rw [getD_map_lt _ points m (by omega)]
  rfl

/-- On a node of a distinct-x point list, the Lagrange evaluator returns the
stored value. -/
theorem lagrange_get_y_node (points : List Point) (hnd : (points.map Point.x).Nodup)
    {p : Point} (hp : p ∈ points) :
    (LagrangePolynomial.interpolate points).get_y p.x = p.y := by
  obtain ⟨b, hb, hbp⟩ := find?_bterms_mem points hnd hp
  simp only [LagrangePolynomial.interpolate, LagrangePolynomial.get_y, hb, hbp]

/-- On a node of a distinct-x point list, the Newton evaluator returns the
stored value. -/
theorem newton_get_y_node (points : List Point) (hnd : (points.map Point.x).Nodup)
    {p : Point} (hp : p ∈ points) :
    (NewtonPolynomial.interpolate points).get_y p.x = some p.y := by
  simp only [NewtonPolynomial.interpolate, NewtonPolynomial.get_y,
    find?_points_mem points hnd hp]

/-- The `i`-th barycentric term built by `get_bweights`. -/
theorem get_bweights_getD (points : List Point) (i : ℕ) (h : i < points.length) :
    (LagrangePolynomial.get_bweights points).getD i ⟨0, default⟩
      = ⟨bweightSpec points i, points.getD i default⟩ := by
  rw [LagrangePolynomial.get_bweights,
    List.getD_eq_getElem _ _ (by simpa using h), List.getElem_map]
  have hg : points[i] = points.getD i default := (List.getD_eq_getElem points default h).symm
  rw [hg, bweight_eq_spec]

/-- The monomial evaluator as a `Finset.range` power sum. -/
theorem monomial_get_y_eq (p : MonomialPolynomial) (x : ℚ) :
    p.get_y x = ∑ i in Finset.range p.coeffs.length, p.coeffs.getD i 0 * x ^ i := by
  rw [MonomialPolynomial.get_y]
  simp only [foldl_add_sum, zero_add]
  rw [List.enum_eq_zip_range,
    zip_map_sum (List.range p.coeffs.length) p.coeffs 0 0 (fun i c => x ^ i * c),
    List.length_range, min_self]
  refine Finset.sum_congr rfl fun i hi => ?_
  rw [Finset.mem_range] at hi
  rw [List.getD_eq_getElem _ _ (by simpa using hi), List.getElem_range, mul_comm]

end EvalHelpers


/-- C1 counterexample: for the duplicate-x input `[(1,2), (1,3)]` the point
`(1,3)` is stored, but both evaluators return the first matching `y = 2` at
`x = 1`, not `3`; so the claim fails as universally stated. -/
theorem c1_counterexample :
    (⟨1, 3⟩ : Point) ∈ ([⟨1, 2⟩, ⟨1, 3⟩] : List Point)
      ∧ (LagrangePolynomial.interpolate [⟨1, 2⟩, ⟨1, 3⟩]).get_y 1 ≠ 3
      ∧ (NewtonPolynomial.interpolate [⟨1, 2⟩, ⟨1, 3⟩]).get_y 1 ≠ some 3 := by
  refine ⟨by simp, ?_, ?_⟩ <;> with_unfolding_all decide

/-- C1 (amended): for every Lagrange and Newton interpolant built from a
point list whose x-coordinates are pairwise distinct, and for every stored
point `p`, evaluating at `p.x` returns exactly `p.y` (both evaluators
special-case exact node hits, so no arithmetic is performed). -/
theorem c1_exactness_at_nodes (points : List Point)
    (hnd : (points.map Point.x).Nodup) (p : Point) (hp : p ∈ points) :
    (LagrangePolynomial.interpolate points).get_y p.x = p.y
      ∧ (NewtonPolynomial.interpolate points).get_y p.x = some p.y :=
  ⟨lagrange_get_y_node points hnd hp, newton_get_y_node points hnd hp⟩

/-- C1 witness: the amended theorem applied to the nodes `[(1,2), (3,4)]`
and the stored point `(3,4)`. -/
theorem c1_exactness_at_nodes_witness :
    ((([⟨1, 2⟩, ⟨3, 4⟩] : List Point).map Point.x).Nodup
        ∧ (⟨3, 4⟩ : Point) ∈ ([⟨1, 2⟩, ⟨3, 4⟩] : List Point))
      ∧ (LagrangePolynomial.interpolate [⟨1, 2⟩, ⟨3, 4⟩]).get_y (Point.mk 3 4).x = 4
        ∧ (NewtonPolynomial.interpolate [⟨1, 2⟩, ⟨3, 4⟩]).get_y (Point.mk 3 4).x = some 4 :=
  ⟨⟨by with_unfolding_all decide, by simp⟩,
    c1_exactness_at_nodes [⟨1, 2⟩, ⟨3, 4⟩] (by with_unfolding_all decide) ⟨3, 4⟩ (by simp)⟩

/-- C2: Lagrange construction produces exactly one weighted term per input
point, in input order, and the `i`-th weight is the product of
`xᵢ - xⱼ` over all input indices `j`, keeping only the factors that are not
exactly zero (a product with no remaining factors is 1, by
`Finset.prod_empty`). -/
theorem c2_lagrange_construction (points : List Point) :
    (LagrangePolynomial.interpolate points).bterms.length = points.length
      ∧ ∀ i, i < points.length →
          ((LagrangePolynomial.interpolate points).bterms.getD i ⟨0, default⟩).p
              = points.getD i default
            ∧ ((LagrangePolynomial.interpolate points).bterms.getD i ⟨0, default⟩).w
              = bweightSpec points i := by
  refine ⟨by simp [LagrangePolynomial.interpolate, LagrangePolynomial.get_bweights], ?_⟩
  intro i hi
  rw [LagrangePolynomial.interpolate, get_bweights_getD points i hi]
  exact ⟨rfl, rfl⟩

/-- C2 witness: the construction theorem applied to the input
`[(1,2), (3,4)]` at index 1, whose weight keeps the single nonzero factor
`3 - 1 = 2`. -/
theorem c2_lagrange_construction_witness :
    ((LagrangePolynomial.interpolate [⟨1, 2⟩, ⟨3, 4⟩]).bterms.length = 2
        ∧ ((LagrangePolynomial.interpolate [⟨1, 2⟩, ⟨3, 4⟩]).bterms.getD 1 ⟨0, default⟩).p
            = ⟨3, 4⟩
        ∧ ((LagrangePolynomial.interpolate [⟨1, 2⟩, ⟨3, 4⟩]).bterms.getD 1 ⟨0, default⟩).w
            = bweightSpec [⟨1, 2⟩, ⟨3, 4⟩] 1)
      ∧ bweightSpec [⟨1, 2⟩, ⟨3, 4⟩] 1 = 2 :=
  ⟨⟨(c2_lagrange_construction [⟨1, 2⟩, ⟨3, 4⟩]).1,
    ((c2_lagrange_construction [⟨1, 2⟩, ⟨3, 4⟩]).2 1 (by decide)).1,
    ((c2_lagrange_construction [⟨1, 2⟩, ⟨3, 4⟩]).2 1 (by decide)).2⟩,
    by with_unfolding_all decide⟩

/-- C3: off the nodes, Lagrange evaluation returns `N / D`, where `N` sums
`yᵢ / ((x - xᵢ)·wᵢ)` and `D` sums `1 / ((x - xᵢ)·wᵢ)` over the stored terms
in input order. -/
theorem c3_lagrange_off_node (points : List Point) (x : ℚ)
    (h : ∀ p ∈ points, p.x ≠ x) :
    (LagrangePolynomial.interpolate points).get_y x
      = (∑ i in Finset.range points.length,
          ycoord points i / ((x - xcoord points i) * bweightSpec points i))
        / (∑ i in Finset.range points.length,
            1 / ((x - xcoord points i) * bweightSpec points i)) :=
  lagrange_get_y_off points x h

/-- C3 witness: the off-node formula at nodes `[(0,1), (1,3)]` and query
`x = 2`. -/
theorem c3_lagrange_off_node_witness :
    (∀ p ∈ ([⟨0, 1⟩, ⟨1, 3⟩] : List Point), p.x ≠ 2)
      ∧ (LagrangePolynomial.interpolate [⟨0, 1⟩, ⟨1, 3⟩]).get_y 2
          = (∑ i in Finset.range ([⟨0, 1⟩, ⟨1, 3⟩] : List Point).length,
              ycoord [⟨0, 1⟩, ⟨1, 3⟩] i
                / ((2 - xcoord [⟨0, 1⟩, ⟨1, 3⟩] i) * bweightSpec [⟨0, 1⟩, ⟨1, 3⟩] i))
            / (∑ i in Finset.range ([⟨0, 1⟩, ⟨1, 3⟩] : List Point).length,
                1 / ((2 - xcoord [⟨0, 1⟩, ⟨1, 3⟩] i) * bweightSpec [⟨0, 1⟩, ⟨1, 3⟩] i)) :=
  ⟨by with_unfolding_all decide,
    c3_lagrange_off_node [⟨0, 1⟩, ⟨1, 3⟩] 2 (by with_unfolding_all decide)⟩

/-- C4: Newton construction stores a table with exactly one divided
difference per point, entry `k` being `ddiff(0,k)`, where `ddiff` satisfies
the claim's base cases and two-sided recursion over the points in input
order. -/
theorem c4_newton_construction (points : List Point) :
    (NewtonPolynomial.interpolate points).ddiffs.length = points.length
      ∧ (∀ k, k < points.length →
          (NewtonPolynomial.interpolate points).ddiffs.getD k 0
            = NewtonPolynomial.ddiff points 0 k)
      ∧ (∀ i, NewtonPolynomial.ddiff points i i = ycoord points i)
      ∧ (∀ i, NewtonPolynomial.ddiff points i (i + 1)
          = (ycoord points (i + 1) - ycoord points i)
              / (xcoord points (i + 1) - xcoord points i))
      ∧ ∀ i j, i + 2 ≤ j →
          NewtonPolynomial.ddiff points i j
            = (NewtonPolynomial.ddiff points (i + 1) j
                - NewtonPolynomial.ddiff points i (j - 1))
                / (xcoord points j - xcoord points i) :=
  ⟨get_ddiffs_length points,
    fun k hk => get_ddiffs_getD points k hk,
    fun i => ddiff_self points i,
    fun i => ddiff_adj points i,
    fun i j hij => ddiff_rec points i j hij⟩

/-- C4 witness: the construction theorem applied to
`[(0,1), (1,3), (2,9)]` at table index 2 and recursion indices
`i = 0, j = 2`. -/
theorem c4_newton_construction_witness :
    (NewtonPolynomial.interpolate [⟨0, 1⟩, ⟨1, 3⟩, ⟨2, 9⟩]).ddiffs.length = 3
      ∧ (NewtonPolynomial.interpolate [⟨0, 1⟩, ⟨1, 3⟩, ⟨2, 9⟩]).ddiffs.getD 2 0
          = NewtonPolynomial.ddiff [⟨0, 1⟩, ⟨1, 3⟩, ⟨2, 9⟩] 0 2
      ∧ NewtonPolynomial.ddiff [⟨0, 1⟩, ⟨1, 3⟩, ⟨2, 9⟩] 0 2
          = (NewtonPolynomial.ddiff [⟨0, 1⟩, ⟨1, 3⟩, ⟨2, 9⟩] 1 2
              - NewtonPolynomial.ddiff [⟨0, 1⟩, ⟨1, 3⟩, ⟨2, 9⟩] 0 1)
              / (xcoord [⟨0, 1⟩, ⟨1, 3⟩, ⟨2, 9⟩] 2 - xcoord [⟨0, 1⟩, ⟨1, 3⟩, ⟨2, 9⟩] 0) :=
  ⟨(c4_newton_construction [⟨0, 1⟩, ⟨1, 3⟩, ⟨2, 9⟩]).1,
    (c4_newton_construction [⟨0, 1⟩, ⟨1, 3⟩, ⟨2, 9⟩]).2.1 2 (by decide),
    (c4_newton_construction [⟨0, 1⟩, ⟨1, 3⟩, ⟨2, 9⟩]).2.2.2.2 0 2 (by decide)⟩

/-- C5: off the nodes, Newton evaluation returns `ddiffs[0]` plus the sum
over `k = 1..n-1` of `ddiffs[k] · ∏_{m<k} (x - xₘ)` (the product accumulated
by the running scan); the claim presupposes at least one point, since the
evaluator slices `ddiffs[1..]`. -/
theorem c5_newton_off_node (points : List Point) (x : ℚ) (hne : points ≠ [])
    (hmiss : ∀ p ∈ points, p.x ≠ x) :
    (NewtonPolynomial.interpolate points).get_y x
      = some (NewtonPolynomial.ddiff points 0 0
          + ∑ k in Finset.Ico 1 points.length,
              NewtonPolynomial.ddiff points 0 k
                * ∏ m in Finset.range k, (x - xcoord points m)) :=
  newton_get_y_off points x hne hmiss

/-- C5 witness: the off-node formula at nodes `[(0,1), (1,3)]` and query
`x = 2`. -/
theorem c5_newton_off_node_witness :
    (([⟨0, 1⟩, ⟨1, 3⟩] : List Point) ≠ []
        ∧ ∀ p ∈ ([⟨0, 1⟩, ⟨1, 3⟩] : List Point), p.x ≠ 2)
      ∧ (NewtonPolynomial.interpolate [⟨0, 1⟩, ⟨1, 3⟩]).get_y 2
          = some (NewtonPolynomial.ddiff [⟨0, 1⟩, ⟨1, 3⟩] 0 0
              + ∑ k in Finset.Ico 1 ([⟨0, 1⟩, ⟨1, 3⟩] : List Point).length,
                  NewtonPolynomial.ddiff [⟨0, 1⟩, ⟨1, 3⟩] 0 k
                    * ∏ m in Finset.range k, (2 - xcoord [⟨0, 1⟩, ⟨1, 3⟩] m)) :=
  ⟨⟨by decide, by with_unfolding_all decide⟩,
    c5_newton_off_node [⟨0, 1⟩, ⟨1, 3⟩] 2 (by decide) (by with_unfolding_all decide)⟩

/-- C6: monomial evaluation returns the power sum `∑ cᵢ · xⁱ` over the
coefficients in index order, and the empty coefficient list evaluates to 0
at every `x`; evaluation is a total function. -/
theorem c6_monomial_evaluation (p : MonomialPolynomial) (x : ℚ) :
    p.get_y x = ∑ i in Finset.range p.coeffs.length, p.coeffs.getD i 0 * x ^ i
      ∧ MonomialPolynomial.get_y ⟨[]⟩ x = 0 :=
  ⟨monomial_get_y_eq p x, by rw [monomial_get_y_eq]; simp⟩

/-- C9: for the concrete scenario of `main` (coefficients `[1.9, 9.2, 7.0]`,
nodes `[1.8, 37.2, 80.9]`, queries `x = 10..99`), no query point exceeds the
`0.01` Lagrange tolerance and no query point exceeds the `0.05` Newton
tolerance (and no Newton evaluation panics). -/
theorem c9_scenario_counts : count_lp = 0 ∧ count_np = some 0 := by
  constructor <;> with_unfolding_all decide

/-- C10: building from an empty point sequence is not rejected (both
constructions return the empty-table interpolant); the Lagrange interpolant
then evaluates to `NaN` (the IEEE value of its `0.0 / 0.0` barycentric
quotient) at every query, while the Newton interpolant panics
(out-of-bounds slice of its empty table, modelled as `none`) at every query,
in both the exact and the extended-value models. -/
theorem c10_empty_input :
    LagrangePolynomial.interpolate [] = ⟨[]⟩
      ∧ NewtonPolynomial.interpolate [] = ⟨[], []⟩
      ∧ (∀ x : ℚ, LagrangePolynomial.get_yEF [] x = EF.nan)
      ∧ (∀ x : ℚ, NewtonPolynomial.get_y (NewtonPolynomial.interpolate []) x = none)
      ∧ (∀ x : ℚ, NewtonPolynomial.get_yEF [] x = none) :=
  ⟨rfl, rfl, fun x => by with_unfolding_all rfl, fun x => by with_unfolding_all rfl,
    fun x => by with_unfolding_all rfl⟩

/-- C8: division by zero surfaces as a non-finite value, never as a panic:
the extended-value division of any finite value by zero is non-finite
(`±∞` or `NaN`); Newton evaluation on any nonempty point list returns a
value (`isSome`, i.e. no panic) whatever divisions by zero occur inside —
the Lagrange evaluator `LagrangePolynomial.get_yEF` is a total function, so
it cannot panic at all; and in the two concrete degenerate pipelines below
the division by zero propagates to a non-finite result: a duplicated node
makes the Lagrange barycentric denominator `D` vanish at `x = 2`, giving
`+∞`, and makes the first Newton divided difference infinite, giving `-∞`
at `x = 0`. -/
theorem c8_division_by_zero :
    (∀ q : ℚ, (EF.div (EF.fin q) (EF.fin 0)).nonFinite = true)
      ∧ (∀ (points : List Point) (x : ℚ), points ≠ [] →
          (NewtonPolynomial.get_yEF points x).isSome = true)
      ∧ LagrangePolynomial.get_yEF [⟨0, 0⟩, ⟨0, 0⟩, ⟨1, 1⟩] 2 = EF.pinf
      ∧ NewtonPolynomial.get_yEF [⟨1, 2⟩, ⟨1, 3⟩] 0 = some EF.ninf := by
  refine ⟨?_, ?_, ?_, ?_⟩
  · intro q
    rw [EF.div]
    split_ifs <;> simp_all [EF.nonFinite]
  · intro points x hne
    cases hf : points.find? (fun p => p.x == x) with
    | some p => simp [NewtonPolynomial.get_yEF, hf]
    | none =>
      have hlen : (NewtonPolynomial.get_ddiffsEF points).length = points.length := by
        simp [NewtonPolynomial.get_ddiffsEF]
      have hnz : ¬((NewtonPolynomial.get_ddiffsEF points).length = 0) := by
        rw [hlen]
        exact fun h0 => hne (List.length_eq_zero.mp h0)
      simp [NewtonPolynomial.get_yEF, hf, hnz]
  · with_unfolding_all decide
  · with_unfolding_all decide

/-- C8 witness: the division-by-zero theorem instantiated at the finite
value 5 and at the duplicate-node Newton pipeline. -/
theorem c8_division_by_zero_witness :
    (EF.div (EF.fin 5) (EF.fin 0)).nonFinite = true
      ∧ (NewtonPolynomial.get_yEF [⟨1, 2⟩, ⟨1, 3⟩] 0).isSome = true :=
  ⟨c8_division_by_zero.1 5,
    c8_division_by_zero.2.1 [⟨1, 2⟩, ⟨1, 3⟩] 0 (by decide)⟩

section OrderInvariance

open Polynomial

/-- Distinct indices of a distinct-x point list carry distinct
x-coordinates. -/
theorem xcoord_inj (points : List Point) (hnd : (points.map Point.x).Nodup)
    {a b : ℕ} (ha : a < points.length) (hb : b < points.length) (hab : a ≠ b) :
    xcoord points a ≠ xcoord points b := by
  intro hx
  apply hab
  have ha' : a < (points.map Point.x).length := by simpa using ha
  have hb' : b < (points.map Point.x).length := by simpa using hb
  have hxa : (points.map Point.x)[a] = xcoord points a := by
    rw [List.getElem_map, xcoord, List.getD_eq_getElem points default ha]
  have hxb : (points.map Point.x)[b] = xcoord points b := by
    rw [List.getElem_map, xcoord, List.getD_eq_getElem points default hb]
  have : (points.map Point.x)[a] = (points.map Point.x)[b] := by rw [hxa, hxb, hx]
  exact (List.Nodup.getElem_inj_iff hnd).mp this

/-- The Neville window polynomial has degree at most the window width. -/
theorem nev_natDegree_le (points : List Point) :
    ∀ d i j, j - i = d → (nev points i j).natDegree ≤ j - i := by
  intro d
  induction d using Nat.strong_induction_on with
  | _ d ih =>
    intro i j hd
    rw [nev]
    split_ifs with h
    · simp
    · have hij : i < j := lt_of_not_le h
      refine le_trans (natDegree_C_mul_le _ _) ?_
      refine le_trans (natDegree_sub_le _ _) (max_le ?_ ?_)
      · refine le_trans (natDegree_mul_le) ?_
        have h1 : (X - C (xcoord points i)).natDegree = 1 := natDegree_X_sub_C _
        have h2 := ih (j - (i + 1)) (by omega) (i + 1) j rfl
        omega
      · refine le_trans (natDegree_mul_le) ?_
        have h1 : (X - C (xcoord points j)).natDegree = 1 := natDegree_X_sub_C _
        have h2 := ih (j - 1 - i) (by omega) i (j - 1) rfl
        omega

/-- The top window coefficient of the Neville polynomial is the divided
difference of the window. -/
theorem nev_coeff_top (points : List Point) :
    ∀ d i j, j - i = d →
      (nev points i j).coeff (j - i) = NewtonPolynomial.ddiff points i j := by
  intro d
  induction d using Nat.strong_induction_on with
  | _ d ih =>
    intro i j hd
    rw [nev]
    split_ifs with h
    · have hji : j - i = 0 := by omega
      rw [hji, coeff_C_zero, NewtonPolynomial.ddiff]
      rw [dif_pos hji]
      rfl
    · have hij : i < j := lt_of_not_le h
      have hd1 : 1 ≤ j - i := by omega
      rw [coeff_C_mul]
      rw [sub_mul, sub_mul, coeff_sub, coeff_sub, coeff_sub]
      have hsplit : j - i = (j - i - 1) + 1 := by omega
      have hXp : (X * nev points (i + 1) j).coeff (j - i)
          = NewtonPolynomial.ddiff points (i + 1) j := by
        rw [hsplit, coeff_X_mul]
        have := ih (j - (i + 1)) (by omega) (i + 1) j rfl
        rwa [show j - (i + 1) = j - i - 1 by omega] at this
      have hXq : (X * nev points i (j - 1)).coeff (j - i)
          = NewtonPolynomial.ddiff points i (j - 1) := by
        rw [hsplit, coeff_X_mul]
        have := ih (j - 1 - i) (by omega) i (j - 1) rfl
        rwa [show j - 1 - i = j - i - 1 by omega] at this
      have hPzero : (nev points (i + 1) j).coeff (j - i) = 0 := by
        refine coeff_eq_zero_of_natDegree_lt ?_
        have := nev_natDegree_le points (j - (i + 1)) (i + 1) j rfl
        omega
      have hQzero : (nev points i (j - 1)).coeff (j - i) = 0 := by
        refine coeff_eq_zero_of_natDegree_lt ?_
        have := nev_natDegree_le points (j - 1 - i) i (j - 1) rfl
        omega
      rw [coeff_C_mul, coeff_C_mul, hXp, hXq, hPzero, hQzero, mul_zero, sub_zero,
        mul_zero, sub_zero]
      by_cases hone : j - i = 1
      · have hj : j = i + 1 := by omega
        subst hj
        rw [show i + 1 - 1 = i by omega, ddiff_self points (i + 1), ddiff_self points i,
          ddiff_adj points i]
        rw [div_eq_mul_inv, mul_comm]
      · rw [ddiff_rec points i j (by omega)]
        rw [div_eq_mul_inv, mul_comm]

end OrderInvariance

section OrderInvariance2

open Polynomial

/-- The Neville window polynomial interpolates every node of its window,
provided the x-coordinates are pairwise distinct. -/
theorem nev_eval_node (points : List Point) (hnd : (points.map Point.x).Nodup) :
    ∀ d i j, j - i = d → j < points.length →
      ∀ l, i ≤ l → l ≤ j → (nev points i j).eval (xcoord points l) = ycoord points l := by
  intro d
  induction d using Nat.strong_induction_on with
  | _ d ih =>
    intro i j hd hj l hil hlj
    rw [nev]
    split_ifs with h
    · have hl : l = i := by omega
      subst hl
      simp
    · have hij : i < j := lt_of_not_le h
      have hxne : xcoord points j - xcoord points i ≠ 0 :=
        sub_ne_zero_of_ne (xcoord_inj points hnd hj (by omega) (by omega))
      simp only [eval_mul, eval_sub, eval_C, eval_X]
      by_cases hli : l = i
      · subst hli
        have hQ := ih (j - 1 - l) (by omega) l (j - 1) rfl (by omega) l (le_refl l) (by omega)
        rw [hQ, sub_self, zero_mul, zero_sub]
        field_simp
        try ring
      · by_cases hlj' : l = j
        · subst hlj'
          have hP := ih (l - (i + 1)) (by omega) (i + 1) l rfl hj l (by omega) (le_refl l)
          rw [hP, sub_self, zero_mul, sub_zero]
          field_simp
          try ring
        · have hP := ih (j - (i + 1)) (by omega) (i + 1) j rfl hj l (by omega) hlj
          have hQ := ih (j - 1 - i) (by omega) i (j - 1) rfl (by omega) l hil (by omega)
          rw [hP, hQ]
          field_simp
          ring

end OrderInvariance2

section OrderInvariance3

open Polynomial

/-- A polynomial with degree bound `n` and vanishing `n`-th coefficient has
degree strictly below `n`. -/
theorem degree_lt_of_coeff_zero (p : Polynomial ℚ) (n : ℕ)
    (hdeg : p.natDegree ≤ n) (hc : p.coeff n = 0) : p.degree < (n : WithBot ℕ) := by
  rcases eq_or_ne p 0 with rfl | hne
  · rw [degree_zero]
    exact WithBot.bot_lt_coe n
  · rw [degree_eq_natDegree hne, Nat.cast_lt]
    rcases lt_or_eq_of_le hdeg with hlt | heq
    · exact hlt
    · exfalso
      apply leadingCoeff_ne_zero.mpr hne
      rw [leadingCoeff, heq, hc]

/-- The nodal polynomial of a window is monic. -/
theorem nodal_monic (points : List Point) (i j : ℕ) :
    (∏ m in Finset.Ico i j, (X - C (xcoord points m))).Monic :=
  monic_prod_of_monic _ _ fun m _ => monic_X_sub_C (xcoord points m)

/-- The nodal polynomial of a window has degree the window width. -/
theorem nodal_natDegree (points : List Point) (i j : ℕ) :
    (∏ m in Finset.Ico i j, (X - C (xcoord points m))).natDegree = j - i := by
  rw [natDegree_prod_of_monic _ _ fun m _ => monic_X_sub_C (xcoord points m)]
  simp [natDegree_X_sub_C, Nat.card_Ico]

/-- The window Newton-form polynomial equals the Neville polynomial on every
window of a distinct-x point list. -/
theorem nwPoly_eq_nev (points : List Point) (hnd : (points.map Point.x).Nodup) :
    ∀ d i j, j - i = d → i ≤ j → j < points.length →
      nwPoly points i j = nev points i j := by
  intro d
  induction d using Nat.strong_induction_on with
  | _ d ih =>
    intro i j hd hij hj
    rcases eq_or_lt_of_le hij with heq | hlt
    · subst heq
      rw [nwPoly, Finset.Icc_self, Finset.sum_singleton, Finset.Ico_self,
        Finset.prod_empty, mul_one, ddiff_self, nev, dif_pos (le_refl i)]
    · have hj1 : j - 1 < points.length := by omega
      have hstep : nwPoly points i j
          = nwPoly points i (j - 1)
            + C (NewtonPolynomial.ddiff points i j)
              * ∏ m in Finset.Ico i j, (X - C (xcoord points m)) := by
        rw [nwPoly, nwPoly]
        have hj' : j = (j - 1) + 1 := by omega
        rw [hj', Finset.sum_Icc_succ_top (by omega), ← hj']
      have hQ : nwPoly points i (j - 1) = nev points i (j - 1) :=
        ih (j - 1 - i) (by omega) i (j - 1) rfl (by omega) hj1
      set ω : Polynomial ℚ := ∏ m in Finset.Ico i j, (X - C (xcoord points m)) with hω
      set D : Polynomial ℚ :=
        nev points i j - nev points i (j - 1)
          - C (NewtonPolynomial.ddiff points i j) * ω with hD
      have hωdeg : ω.natDegree = j - i := nodal_natDegree points i j
      have hDdeg : D.natDegree ≤ j - i := by
        rw [hD]
        refine le_trans (natDegree_sub_le _ _) (max_le (le_trans (natDegree_sub_le _ _)
          (max_le ?_ ?_)) ?_)
        · exact nev_natDegree_le points (j - i) i j rfl
        · exact le_trans (nev_natDegree_le points (j - 1 - i) i (j - 1) rfl) (by omega)
        · exact le_trans (natDegree_C_mul_le _ _) (le_of_eq hωdeg)
      have hDcoeff : D.coeff (j - i) = 0 := by
        rw [hD, coeff_sub, coeff_sub, coeff_C_mul]
        rw [nev_coeff_top points (j - i) i j rfl]
        have h1 : (nev points i (j - 1)).coeff (j - i) = 0 := by
          refine coeff_eq_zero_of_natDegree_lt ?_
          have := nev_natDegree_le points (j - 1 - i) i (j - 1) rfl
          omega
        have h2 : ω.coeff (j - i) = 1 := by
          have := (nodal_monic points i j).coeff_natDegree
          rwa [hωdeg] at this
        rw [h1, h2, mul_one, sub_zero, sub_self]
      have hDzero : D = 0 := by
        refine @eq_zero_of_degree_lt_of_eval_index_eq_zero ℚ _ _ D ℕ (xcoord points)
          (Finset.Ico i j) ?_ ?_ ?_
        · intro a ha b hb hab
          by_contra hne
          exact xcoord_inj points hnd
            (by simp only [Finset.coe_Ico, Set.mem_Ico] at ha; omega)
            (by simp only [Finset.coe_Ico, Set.mem_Ico] at hb; omega) hne hab
        · rw [Nat.card_Ico]
          exact degree_lt_of_coeff_zero D (j - i) hDdeg hDcoeff
        · intro m hm
          rw [Finset.mem_Ico] at hm
          rw [hD, eval_sub, eval_sub, eval_mul, eval_C]
          have hnev1 : (nev points i j).eval (xcoord points m) = ycoord points m :=
            nev_eval_node points hnd (j - i) i j rfl hj m hm.1 (by omega)
          have hnev2 : (nev points i (j - 1)).eval (xcoord points m) = ycoord points m :=
            nev_eval_node points hnd (j - 1 - i) i (j - 1) rfl hj1 m hm.1 (by omega)
          have hωe : ω.eval (xcoord points m) = 0 := by
            rw [hω, eval_prod]
            refine Finset.prod_eq_zero (Finset.mem_Ico.mpr hm) ?_
            simp
          rw [hnev1, hnev2, hωe, mul_zero, sub_self, sub_zero]
      rw [hstep, hQ]
      have : nev points i j - nev points i (j - 1)
          - C (NewtonPolynomial.ddiff points i j) * ω = 0 := hDzero
      rw [sub_sub, sub_eq_zero] at this
      exact this.symm

end OrderInvariance3

section OrderInvariance4

open Polynomial

/-- The off-node Newton evaluation value is the evaluation of the Newton
window polynomial over the full index window. -/
theorem newton_value_eq_nwPoly_eval (points : List Point) (x : ℚ) (hne : points ≠ []) :
    NewtonPolynomial.ddiff points 0 0
        + ∑ k in Finset.Ico 1 points.length,
            NewtonPolynomial.ddiff points 0 k
              * ∏ m in Finset.range k, (x - xcoord points m)
      = (nwPoly points 0 (points.length - 1)).eval x := by
  have hn : 0 < points.length := List.length_pos.mpr hne
  rw [nwPoly, eval_finset_sum]
  simp only [eval_mul, eval_C, eval_prod, eval_sub, eval_X]
  have hIcc : Finset.Icc 0 (points.length - 1) = Finset.range points.length := by
    ext a
    simp only [Finset.mem_Icc, Finset.mem_range]
    omega
  rw [hIcc, Finset.range_eq_Ico, Finset.sum_eq_sum_Ico_succ_bot hn]
  refine congrArg₂ (· + ·) ?_ (Finset.sum_congr rfl fun k _ => ?_)
  · rw [Finset.Ico_self, Finset.prod_empty, mul_one]
  · rfl

/-- Under a permutation of a distinct-x nonempty point list, the full-window
Newton polynomials coincide (both interpolate the same node set with degree
below its size). -/
theorem nwPoly_perm (points points' : List Point) (hperm : points.Perm points')
    (hnd : (points.map Point.x).Nodup) (hne : points ≠ []) :
    nwPoly points 0 (points.length - 1) = nwPoly points' 0 (points'.length - 1) := by
  have hnd' : (points'.map Point.x).Nodup := ((hperm.map Point.x).nodup_iff).mp hnd
  have hlen : points.length = points'.length := hperm.length_eq
  have hn : 0 < points.length := List.length_pos.mpr hne
  have hN := nwPoly_eq_nev points hnd (points.length - 1) 0 (points.length - 1) rfl
    (by omega) (by omega)
  have hN' := nwPoly_eq_nev points' hnd' (points'.length - 1) 0 (points'.length - 1) rfl
    (by omega) (by omega)
  set s : Finset ℚ := (points.map Point.x).toFinset with hs
  have hcard : s.card = points.length := by
    rw [hs, List.toFinset_card_of_nodup hnd, List.length_map]
  have hdegN : (nwPoly points 0 (points.length - 1)).degree < (s.card : WithBot ℕ) := by
    rw [hN, hcard]
    refine lt_of_le_of_lt (degree_le_natDegree) ?_
    have hb := nev_natDegree_le points (points.length - 1) 0 (points.length - 1) rfl
    exact lt_of_le_of_lt (Nat.cast_le.mpr hb) (Nat.cast_lt.mpr (by omega))
  have hdegN' : (nwPoly points' 0 (points'.length - 1)).degree < (s.card : WithBot ℕ) := by
    rw [hN', hcard, hlen]
    refine lt_of_le_of_lt (degree_le_natDegree) ?_
    have hb := nev_natDegree_le points' (points'.length - 1) 0 (points'.length - 1) rfl
    exact lt_of_le_of_lt (Nat.cast_le.mpr hb) (Nat.cast_lt.mpr (by omega))
  refine eq_of_degrees_lt_of_eval_finset_eq s hdegN hdegN' ?_
  intro z hz
  rw [hs, List.mem_toFinset, List.mem_map] at hz
  obtain ⟨p, hp, hpz⟩ := hz
  obtain ⟨l, hl, hpl⟩ := List.getElem_of_mem hp
  have hp' : p ∈ points' := hperm.subset hp
  obtain ⟨l', hl', hpl'⟩ := List.getElem_of_mem hp'
  have hxl : xcoord points l = z := by
    rw [xcoord, List.getD_eq_getElem points default hl, hpl, hpz]
  have hxl' : xcoord points' l' = z := by
    rw [xcoord, List.getD_eq_getElem points' default hl', hpl', hpz]
  have hyl : ycoord points l = p.y := by
    rw [ycoord, List.getD_eq_getElem points default hl, hpl]
  have hyl' : ycoord points' l' = p.y := by
    rw [ycoord, List.getD_eq_getElem points' default hl', hpl']
  rw [hN, hN', ← hxl]
  rw [nev_eval_node points hnd (points.length - 1) 0 (points.length - 1) rfl (by omega) l
    (by omega) (by omega), hyl]
  rw [hxl, ← hxl']
  rw [nev_eval_node points' hnd' (points'.length - 1) 0 (points'.length - 1) rfl (by omega) l'
    (by omega) (by omega), hyl']

end OrderInvariance4

section OrderInvariance5

/-- Permuting the input permutes the barycentric terms: each point's weight
is a product over the input as a multiset, so it is unchanged. -/
theorem lagrange_bterms_perm (points points' : List Point) (hperm : points.Perm points') :
    (LagrangePolynomial.get_bweights points).Perm
      (LagrangePolynomial.get_bweights points') := by
  rw [LagrangePolynomial.get_bweights, LagrangePolynomial.get_bweights]
  have hmap : points'.map (fun point =>
        Bterm.mk ((points'.map fun p => point.x - p.x).filter fun d => d != 0).prod point)
      = points'.map (fun point =>
        Bterm.mk ((points.map fun p => point.x - p.x).filter fun d => d != 0).prod point) := by
    refine List.map_congr_left fun q _ => ?_
    have hw : ((points.map fun p => q.x - p.x).filter fun d => d != 0).Perm
        ((points'.map fun p => q.x - p.x).filter fun d => d != 0) :=
      (hperm.map fun p => q.x - p.x).filter _
    rw [hw.prod_eq]
  rw [hmap]
  exact hperm.map _

/-- Permuting a distinct-x input does not change the Lagrange evaluation at
any query point. -/
theorem lagrange_get_y_perm (points points' : List Point) (hperm : points.Perm points')
    (hnd : (points.map Point.x).Nodup) (x : ℚ) :
    (LagrangePolynomial.interpolate points).get_y x
      = (LagrangePolynomial.interpolate points').get_y x := by
  by_cases hhit : ∃ p ∈ points, p.x = x
  · obtain ⟨p, hp, rfl⟩ := hhit
    have hnd' : (points'.map Point.x).Nodup := ((hperm.map Point.x).nodup_iff).mp hnd
    rw [lagrange_get_y_node points hnd hp,
      lagrange_get_y_node points' hnd' (hperm.subset hp)]
  · push_neg at hhit
    have hmiss' : ∀ p ∈ points', p.x ≠ x := fun p hp => hhit p (hperm.symm.subset hp)
    have h1 := find?_bterms_none points x hhit
    have h2 := find?_bterms_none points' x hmiss'
    have hbperm := lagrange_bterms_perm points points' hperm
    simp only [LagrangePolynomial.interpolate, LagrangePolynomial.get_y, h1, h2]
    simp only [foldl_pair_sum, zero_add]
    rw [(hbperm.map fun b => b.p.y / ((x - b.p.x) * b.w)).sum_eq,
      (hbperm.map fun b => 1 / ((x - b.p.x) * b.w)).sum_eq]

/-- Permuting a distinct-x input does not change the Newton evaluation at
any query point (including the empty list, where both sides panic). -/
theorem newton_get_y_perm (points points' : List Point) (hperm : points.Perm points')
    (hnd : (points.map Point.x).Nodup) (x : ℚ) :
    (NewtonPolynomial.interpolate points).get_y x
      = (NewtonPolynomial.interpolate points').get_y x := by
  rcases eq_or_ne points [] with rfl | hne
  · rw [hperm.symm.eq_nil]
  · have hne' : points' ≠ [] := fun h => hne (hperm.trans (h ▸ List.Perm.rfl)).eq_nil
    have hnd' : (points'.map Point.x).Nodup := ((hperm.map Point.x).nodup_iff).mp hnd
    by_cases hhit : ∃ p ∈ points, p.x = x
    · obtain ⟨p, hp, rfl⟩ := hhit
      rw [newton_get_y_node points hnd hp,
        newton_get_y_node points' hnd' (hperm.subset hp)]
    · push_neg at hhit
      have hmiss' : ∀ p ∈ points', p.x ≠ x := fun p hp => hhit p (hperm.symm.subset hp)
      rw [newton_get_y_off points x hne hhit, newton_get_y_off points' x hne' hmiss']
      rw [newton_value_eq_nwPoly_eval points x hne,
        newton_value_eq_nwPoly_eval points' x hne']
      rw [nwPoly_perm points points' hperm hnd hne]

end OrderInvariance5

/-- C7 counterexample: for the duplicate-x input `[(1,2), (1,3)]` and its
transposition, both evaluators return different values at `x = 1` (the
find-first node hit picks whichever duplicate comes first), so order
invariance fails as universally stated. -/
theorem c7_counterexample :
    ([⟨1, 2⟩, ⟨1, 3⟩] : List Point).Perm [⟨1, 3⟩, ⟨1, 2⟩]
      ∧ (LagrangePolynomial.interpolate [⟨1, 2⟩, ⟨1, 3⟩]).get_y 1
          ≠ (LagrangePolynomial.interpolate [⟨1, 3⟩, ⟨1, 2⟩]).get_y 1
      ∧ (NewtonPolynomial.interpolate [⟨1, 2⟩, ⟨1, 3⟩]).get_y 1
          ≠ (NewtonPolynomial.interpolate [⟨1, 3⟩, ⟨1, 2⟩]).get_y 1 := by
  refine ⟨List.Perm.swap _ _ _, ?_, ?_⟩ <;> with_unfolding_all decide

/-- C7 (amended): for a point list whose x-coordinates are pairwise
distinct, permuting the input sample-point sequence does not change
`evaluate(x)` for any query `x`, for both interpolant types (exactly, in the
exact-arithmetic model). -/
theorem c7_order_invariance (points points' : List Point) (hperm : points.Perm points')
    (hnd : (points.map Point.x).Nodup) (x : ℚ) :
    (LagrangePolynomial.interpolate points).get_y x
        = (LagrangePolynomial.interpolate points').get_y x
      ∧ (NewtonPolynomial.interpolate points).get_y x
          = (NewtonPolynomial.interpolate points').get_y x :=
  ⟨lagrange_get_y_perm points points' hperm hnd x,
    newton_get_y_perm points points' hperm hnd x⟩

/-- C7 witness: order invariance applied to the distinct-x nodes
`[(0,0), (1,1), (3,2)]`, a rotation of them, and the off-node query
`x = 2`. -/
theorem c7_order_invariance_witness :
    (([⟨0, 0⟩, ⟨1, 1⟩, ⟨3, 2⟩] : List Point).Perm [⟨3, 2⟩, ⟨0, 0⟩, ⟨1, 1⟩]
        ∧ (([⟨0, 0⟩, ⟨1, 1⟩, ⟨3, 2⟩] : List Point).map Point.x).Nodup)
      ∧ (LagrangePolynomial.interpolate [⟨0, 0⟩, ⟨1, 1⟩, ⟨3, 2⟩]).get_y 2
          = (LagrangePolynomial.interpolate [⟨3, 2⟩, ⟨0, 0⟩, ⟨1, 1⟩]).get_y 2
        ∧ (NewtonPolynomial.interpolate [⟨0, 0⟩, ⟨1, 1⟩, ⟨3, 2⟩]).get_y 2
            = (NewtonPolynomial.interpolate [⟨3, 2⟩, ⟨0, 0⟩, ⟨1, 1⟩]).get_y 2 :=
  ⟨⟨by with_unfolding_all decide, by with_unfolding_all decide⟩,
    c7_order_invariance [⟨0, 0⟩, ⟨1, 1⟩, ⟨3, 2⟩] [⟨3, 2⟩, ⟨0, 0⟩, ⟨1, 1⟩]
      (by with_unfolding_all decide) (by with_unfolding_all decide) 2⟩
